import Mathlib

/-!
Shallow embedding of the lfort AST-based call graph
(`include/lfort/Analysis/CallGraph.h`).

Node handles (`CallGraphNode*` in the source) are modelled as indices into an
arena of nodes owned by the graph; declaration handles (`Decl*`) are modelled
as natural-number identities.  The discovery pass (`addToCallGraph` /
`RecursiveASTVisitor`) is modelled as a recursive walk over a declaration
tree; the visitor overrides (`VisitSubprogramDecl`, `VisitObjCMethodDecl`,
`TraverseStmt`) are taken directly from the header.  Bodies of member
functions that the header only declares (`getNode`, `getOrInsertNode`,
`addNodeForDecl`, `addNodesForBlocks`, `includeInGraph`, the constructor)
are modelled from the spec and marked as such in their doc comments.
-/

namespace LFort

/-- A statement of a function body.  Statements are opaque to the call
graph: the visitor never steps into them (`TraverseStmt` returns without
descending, CallGraph.h line 121). -/
structure Stmt where
  tag : Nat
deriving DecidableEq, Repr

/-- The kinds of declarations the discovery visitor distinguishes:
subprogram (function) declarations, Objective-C method declarations,
block declarations, and everything else. -/
inductive DeclKind where
  | subprogram
  | objcMethod
  | block
  | other
deriving DecidableEq, Repr

/-- A declaration (`Decl*` in the source), modelled by the capabilities the
call graph consumes (spec §3): a stable identity `declId` (the pointer),
its kind, the eligibility query (capability (a), `includeInGraph`), the
external-linkage flag (capability (b), `SubprogramDecl::isGlobal`), the
callable blocks lexically nested in it, the declarations nested in its
declaration context, and its statement body. -/
inductive Decl : Type where
  | mk (declId : Nat) (kind : DeclKind) (eligible : Bool) (isGlobal : Bool)
       (blocks : List Decl) (subdecls : List Decl) (body : List Stmt) : Decl
deriving Repr

def Decl.declId : Decl → Nat
  | .mk i _ _ _ _ _ _ => i

def Decl.kind : Decl → DeclKind
  | .mk _ k _ _ _ _ _ => k

def Decl.eligible : Decl → Bool
  | .mk _ _ e _ _ _ _ => e

def Decl.isGlobal : Decl → Bool
  | .mk _ _ _ g _ _ _ => g

def Decl.blocks : Decl → List Decl
  | .mk _ _ _ _ b _ _ => b

def Decl.subdecls : Decl → List Decl
  | .mk _ _ _ _ _ s _ => s

def Decl.body : Decl → List Stmt
  | .mk _ _ _ _ _ _ b => b

/-- `CallGraphNode::CallRecord` (a `CallGraphNode*`): a node handle,
modelled as an index into the graph's node arena. -/
abbrev CallRecord := Nat

/-- A call-graph node: the owning declaration (`FD`, absent for the virtual
root) and the ordered list of callees (`CalledSubprograms`,
CallGraph.h lines 138-142). -/
structure CallGraphNode where
  FD : Option Nat
  CalledSubprograms : List CallRecord
deriving DecidableEq, Repr

/-- The call graph: the arena of nodes it owns (`SubprogramMap` owns all
`CallGraphNode`s), the map from declaration identity to node handle
(`SubprogramMapTy`), and the virtual root handle (CallGraph.h lines 37-43). -/
structure CallGraph where
  nodes : List CallGraphNode
  SubprogramMap : List (Nat × Nat)
  Root : Nat
deriving DecidableEq, Repr

/-- Modelled from the spec: the `CallGraph` constructor creates the root
node once; the root has no declaration and the declaration map starts
empty ("the root node (created once, never re-created, has no
declaration)", spec §3). -/
def CallGraph.empty : CallGraph :=
  { nodes := [{ FD := none, CalledSubprograms := [] }]
    SubprogramMap := []
    Root := 0 }

/-- Dereference a node handle in the graph's arena. -/
def CallGraph.nodeAt (cg : CallGraph) (i : Nat) : CallGraphNode :=
  cg.nodes.getD i { FD := none, CalledSubprograms := [] }

/-- `CallGraph::getRoot` (CallGraph.h line 81). -/
def CallGraph.getRoot (cg : CallGraph) : Nat := cg.Root

/-- `CallGraph::size`: the size of `SubprogramMap` (CallGraph.h line 77). -/
def CallGraph.size (cg : CallGraph) : Nat := cg.SubprogramMap.length

/-- Modelled from the spec: `CallGraph::getNode` (declared at
CallGraph.h line 61, body not in the sources) — "returns the existing node
for a declaration, or a 'not found' indication; never allocates". -/
def CallGraph.getNode (cg : CallGraph) (d : Nat) : Option Nat :=
  (cg.SubprogramMap.find? (fun p => p.1 == d)).map (fun p => p.2)

/-- Modelled from the spec: `CallGraph::getOrInsertNode` (declared at
CallGraph.h line 65, body not in the sources) — "returns the existing node
or allocates and registers a new one"; the new node wraps the declaration
and starts with no callees, and the map gains the binding
("at most one node per declaration, checked-and-reused on repeated
insertion", spec §3). -/
def CallGraph.getOrInsertNode (cg : CallGraph) (d : Nat) : CallGraph × Nat :=
  match cg.getNode d with
  | some n => (cg, n)
  | none =>
    let n := cg.nodes.length
    ({ nodes := cg.nodes ++ [{ FD := some d, CalledSubprograms := [] }]
       SubprogramMap := cg.SubprogramMap ++ [(d, n)]
       Root := cg.Root }, n)

/-- `CallGraphNode::addCallee` (CallGraph.h lines 159-161): appends the
target handle to `CalledSubprograms`; the `CallGraph` argument is unused. -/
def CallGraphNode.addCallee (self : CallGraphNode) (N : CallRecord)
    (CG : CallGraph) : CallGraphNode :=
  { self with CalledSubprograms := self.CalledSubprograms ++ [N] }

/-- `CallGraphNode::getDecl` (CallGraph.h line 163). -/
def CallGraphNode.getDecl (self : CallGraphNode) : Option Nat := self.FD

/-- `CallGraphNode::size` (CallGraph.h line 157): length of the callee list. -/
def CallGraphNode.size (self : CallGraphNode) : Nat :=
  self.CalledSubprograms.length

/-- `CallGraphNode::empty` (CallGraph.h line 156). -/
def CallGraphNode.emptyCallees (self : CallGraphNode) : Bool :=
  self.CalledSubprograms.isEmpty

/-- The in-place effect of `caller->addCallee(N, CGArg)` on the arena that
owns `caller`: node `caller` is replaced by the result of
`CallGraphNode.addCallee`; nothing else in the graph state is touched. -/
def CallGraph.addCalleeAt (cg : CallGraph) (caller : Nat) (N : CallRecord)
    (CGArg : CallGraph) : CallGraph :=
  { cg with nodes := cg.nodes.set caller ((cg.nodeAt caller).addCallee N CGArg) }

/-- The root's callee list (its outgoing edges). -/
def CallGraph.rootCallees (cg : CallGraph) : List CallRecord :=
  (cg.nodeAt cg.Root).CalledSubprograms

/-- Modelled from the spec: `CallGraph::includeInGraph` (declared at
CallGraph.h line 58, body not in the sources) — eligibility is capability
query (a) of the external Declaration contract: "is this declaration a
function, method, or nested callable block that should appear in the graph
at all (template/generic definitions without concrete semantics are
excluded)" (spec §3). -/
def includeInGraph (D : Decl) : Bool := D.eligible

/-- Modelled from the spec: `CallGraph::addNodeForDecl` (declared at
CallGraph.h line 127, body not in the sources) — "Allocate or fetch the
node for the declaration.  If the declaration is externally-reachable
... add a directed edge from the root to this node" (spec §4.1 steps 3-4);
"Idempotent per declaration (inserting the same declaration twice yields
the same node, no duplicate root edge)". -/
def CallGraph.addNodeForDecl (cg : CallGraph) (d : Nat) (IsGlobal : Bool) :
    CallGraph :=
  let p := cg.getOrInsertNode d
  if IsGlobal && !(p.1.rootCallees.contains p.2) then
    p.1.addCalleeAt p.1.Root p.2 p.1
  else p.1

/-- Modelled from the spec: `CallGraph::addNodesForBlocks` (declared at
CallGraph.h line 93, body not in the sources) — "recursively discover
every callable block lexically nested inside it" (spec §4.1 step 2); a
block is externally reachable iff it "is itself a nested block owned by an
externally-reachable enclosing declaration" (spec §4.1 step 4), so the
enclosing declaration's reachability flag is inherited by every block. -/
def addNodesForBlocksAux (flag : Bool) : CallGraph → List Decl → CallGraph
  | cg, [] => cg
  | cg, .mk i k _e _g blks _subs _body :: Bs =>
    let cg1 := if k == DeclKind.block then cg.addNodeForDecl i flag else cg
    let cg2 := addNodesForBlocksAux flag cg1 blks
    addNodesForBlocksAux flag cg2 Bs

def CallGraph.addNodesForBlocks (cg : CallGraph) (D : Decl) : CallGraph :=
  addNodesForBlocksAux D.isGlobal cg D.blocks

/-- `CallGraph::VisitSubprogramDecl` (CallGraph.h lines 97-109): if the
declaration is eligible, add nodes for its nested blocks, then add its own
node, with a root edge iff it has external linkage (`FD->isGlobal()`). -/
def CallGraph.VisitSubprogramDecl (cg : CallGraph) (FD : Decl) : CallGraph :=
  if includeInGraph FD then
    (cg.addNodesForBlocks FD).addNodeForDecl FD.declId FD.isGlobal
  else cg

/-- `CallGraph::VisitObjCMethodDecl` (CallGraph.h lines 112-118): like
`VisitSubprogramDecl` but the root edge is added unconditionally
(`addNodeForDecl(MD, true)`). -/
def CallGraph.VisitObjCMethodDecl (cg : CallGraph) (MD : Decl) : CallGraph :=
  if includeInGraph MD then
    (cg.addNodesForBlocks MD).addNodeForDecl MD.declId true
  else cg

/-- `CallGraph::TraverseStmt` (CallGraph.h line 121): "We are only
collecting the declarations, so do not step into the bodies" — the
override does nothing. -/
def CallGraph.TraverseStmt (cg : CallGraph) (s : Stmt) : CallGraph := cg

mutual

/-- The `RecursiveASTVisitor` walk driven by `addToCallGraph`.  The visitor
library itself is outside the sources; modelled from the spec: a "single
top-down pass" that "discovers and registers every eligible function-like
declaration reachable by lexical nesting" (spec §4.1).  For each
declaration it dispatches the matching `Visit…` override from the header,
hands the body statements to the overridden `TraverseStmt` (which ignores
them), and recurses into the nested declarations. -/
def CallGraph.TraverseDecl (cg : CallGraph) : Decl → CallGraph
  | .mk i k e g blks subs body =>
    let cg1 :=
      match k with
      | .subprogram => cg.VisitSubprogramDecl (.mk i k e g blks subs body)
      | .objcMethod => cg.VisitObjCMethodDecl (.mk i k e g blks subs body)
      | _ => cg
    let cg2 := body.foldl CallGraph.TraverseStmt cg1
    CallGraph.TraverseDeclList cg2 subs

def CallGraph.TraverseDeclList : CallGraph → List Decl → CallGraph
  | cg, [] => cg
  | cg, D :: Ds => CallGraph.TraverseDeclList (cg.TraverseDecl D) Ds

end

/-- `CallGraph::addToCallGraph` (CallGraph.h lines 53-55): populate the
graph by traversing the given declaration. -/
def CallGraph.addToCallGraph (cg : CallGraph) (D : Decl) : CallGraph :=
  cg.TraverseDecl D

/-! ### The discovery pass as a fold over the visited declarations

The walk performs one `addNodeForDecl` call per discovered declaration.
`visitedDecls` lists those calls — the declaration together with the
reachability flag passed to `addNodeForDecl` — in call order, and the
decomposition lemmas below show the traversal equals a left fold of
`addNodeForDecl` over that list. -/

/-- One `addNodeForDecl` call described by a (declaration, flag) pair. -/
def stepVD (cg : CallGraph) (p : Decl × Bool) : CallGraph :=
  cg.addNodeForDecl p.1.declId p.2

def foldVD (cg : CallGraph) (L : List (Decl × Bool)) : CallGraph :=
  L.foldl stepVD cg

/-- One `addNodeForDecl` call described by a (declaration identity, flag)
pair. -/
def stepID (cg : CallGraph) (p : Nat × Bool) : CallGraph :=
  cg.addNodeForDecl p.1 p.2

def foldID (cg : CallGraph) (L : List (Nat × Bool)) : CallGraph :=
  L.foldl stepID cg

/-- The identity/flag pairs of a visited-declaration list. -/
def idPairs (L : List (Decl × Bool)) : List (Nat × Bool) :=
  L.map (fun p => (p.1.declId, p.2))

/-- The `addNodeForDecl` calls made by `addNodesForBlocks`: every block
in the list (recursively), paired with the enclosing declaration's
reachability flag. -/
def blocksPairs (flag : Bool) : List Decl → List (Decl × Bool)
  | [] => []
  | .mk i k e g blks subs body :: Bs =>
    (if k == DeclKind.block then [(Decl.mk i k e g blks subs body, flag)] else [])
      ++ blocksPairs flag blks ++ blocksPairs flag Bs

/-- The `addNodeForDecl` calls made by the `Visit…` dispatch on a single
declaration: nothing for an ineligible or non-callable declaration;
for an eligible subprogram its blocks (with the subprogram's linkage flag)
then the subprogram itself with flag `isGlobal`; for an eligible ObjC
method its blocks then the method itself with flag `true`. -/
def visitPairs (D : Decl) : List (Decl × Bool) :=
  match D.kind with
  | .subprogram =>
    if includeInGraph D then blocksPairs D.isGlobal D.blocks ++ [(D, D.isGlobal)]
    else []
  | .objcMethod =>
    if includeInGraph D then blocksPairs D.isGlobal D.blocks ++ [(D, true)]
    else []
  | _ => []

mutual

/-- All `addNodeForDecl` calls made while traversing a declaration, in
call order. -/
def visitedDecls : Decl → List (Decl × Bool)
  | .mk i k e g blks subs body =>
    visitPairs (.mk i k e g blks subs body) ++ visitedDeclsList subs

def visitedDeclsList : List Decl → List (Decl × Bool)
  | [] => []
  | D :: Ds => visitedDecls D ++ visitedDeclsList Ds

end

/-- The graph produced by the allocating branch of `getOrInsertNode`. -/
def insertFresh (cg : CallGraph) (d : Nat) : CallGraph :=
  { nodes := cg.nodes ++ [{ FD := some d, CalledSubprograms := [] }]
    SubprogramMap := cg.SubprogramMap ++ [(d, cg.nodes.length)]
    Root := cg.Root }

/-- Invariant maintained by the discovery pass, starting from the freshly
constructed graph: the root is node 0; the arena holds exactly one node
per map binding plus the root; every bound handle is a valid arena index;
distinct declarations are bound to distinct handles; and every root edge
targets a valid arena index. -/
structure Inv (cg : CallGraph) : Prop where
  root_eq : cg.Root = 0
  nodes_len : cg.nodes.length = cg.SubprogramMap.length + 1
  vals_range : ∀ p ∈ cg.SubprogramMap, p.2 < cg.nodes.length
  snd_inj : ∀ p ∈ cg.SubprogramMap, ∀ q ∈ cg.SubprogramMap, p.2 = q.2 → p.1 = q.1
  root_edges_range : ∀ n ∈ cg.rootCallees, n < cg.nodes.length

mutual

/-- Strip every statement body from a declaration tree, leaving the
declaration structure (identities, kinds, flags, blocks, nested
declarations) untouched. -/
def eraseBodies : Decl → Decl
  | .mk i k e g blks subs _body =>
    .mk i k e g (eraseBodiesList blks) (eraseBodiesList subs) []

def eraseBodiesList : List Decl → List Decl
  | [] => []
  | D :: Ds => eraseBodies D :: eraseBodiesList Ds

end

/-! ### The generic traversal adapter (`llvm::GraphTraits`) -/

namespace GraphTraits

/-- `GraphTraits<CallGraph*>::getEntryNode` (CallGraph.h lines 202-204):
"Start at the external node!" — the entry node of a whole-graph traversal
is the graph's root. -/
def getEntryNode (CG : CallGraph) : Nat := CG.getRoot

/-- `GraphTraits<CallGraphNode*>::CGNDeref` (CallGraph.h lines 186-188):
dereferencing a `CallRecord` yields the target node handle itself. -/
def CGNDeref (P : CallRecord) : CallRecord := P

/-- `GraphTraits<CallGraphNode*>::child_begin`/`child_end` (CallGraph.h
lines 180-185): the children of a node are the callee list mapped through
`CGNDeref`. -/
def children (cg : CallGraph) (N : Nat) : List CallRecord :=
  (cg.nodeAt N).CalledSubprograms.map CGNDeref

end GraphTraits

/-! ### Example declarations used by the witnesses -/

/-- A block declaration, id 2. -/
def exB : Decl := .mk 2 .block true false [] [] []

/-- A global (externally visible) subprogram, id 1, lexically containing
the block `exB` and a nonempty statement body. -/
def exF : Decl := .mk 1 .subprogram true true [exB] [] [{ tag := 9 }]

/-- A non-global subprogram, id 3. -/
def exG : Decl := .mk 3 .subprogram true false [] [] []

/-- A translation unit containing `exF` and `exG`. -/
def exTU : Decl := .mk 0 .other true false [] [exF, exG] []

/-- The public constructor `CallGraphNode(Decl *D)` (CallGraph.h lines
144-145): it is declared in the `public:` section of the class, so any
code can build a node handle without going through a `CallGraph`. -/
def CallGraphNode.publicCtor (D : Option Nat) : CallGraphNode :=
  { FD := D, CalledSubprograms := [] }

theorem foldVD_append (cg : CallGraph) (L1 L2 : List (Decl × Bool)) :
    foldVD cg (L1 ++ L2) = foldVD (foldVD cg L1) L2 :=
  List.foldl_append ..

theorem foldID_append (cg : CallGraph) (L1 L2 : List (Nat × Bool)) :
    foldID cg (L1 ++ L2) = foldID (foldID cg L1) L2 :=
  List.foldl_append ..

theorem foldVD_eq_foldID (cg : CallGraph) (L : List (Decl × Bool)) :
    foldVD cg L = foldID cg (idPairs L) := by
  rw [foldID, idPairs, List.foldl_map]
  rfl

/-- The overridden `TraverseStmt` leaves the graph untouched, so folding
it over a body is the identity. -/
theorem foldl_TraverseStmt (cg : CallGraph) (body : List Stmt) :
    body.foldl CallGraph.TraverseStmt cg = cg := by
  induction body with
  | nil => rfl
  | cons s ss ih => simpa [CallGraph.TraverseStmt] using ih

theorem addNodesForBlocksAux_eq (flag : Bool) :
    ∀ (cg : CallGraph) (Bs : List Decl),
      addNodesForBlocksAux flag cg Bs = foldVD cg (blocksPairs flag Bs)
  | cg, [] => by simp [addNodesForBlocksAux, blocksPairs, foldVD]
  | cg, .mk i k e g blks subs body :: Bs => by
    simp only [addNodesForBlocksAux, blocksPairs, foldVD_append,
      addNodesForBlocksAux_eq flag _ blks, addNodesForBlocksAux_eq flag _ Bs]
    cases h : (k == DeclKind.block) with
    | true => rfl
    | false => rfl

theorem VisitSubprogramDecl_eq (cg : CallGraph) (D : Decl) :
    cg.VisitSubprogramDecl D
      = foldVD cg (if includeInGraph D
          then blocksPairs D.isGlobal D.blocks ++ [(D, D.isGlobal)] else []) := by
  rw [CallGraph.VisitSubprogramDecl]
  cases h : includeInGraph D with
  | true =>
    simp only [if_pos]
    rw [foldVD_append, CallGraph.addNodesForBlocks, addNodesForBlocksAux_eq]
    rfl
  | false => rfl

theorem VisitObjCMethodDecl_eq (cg : CallGraph) (D : Decl) :
    cg.VisitObjCMethodDecl D
      = foldVD cg (if includeInGraph D
          then blocksPairs D.isGlobal D.blocks ++ [(D, true)] else []) := by
  rw [CallGraph.VisitObjCMethodDecl]
  cases h : includeInGraph D with
  | true =>
    simp only [if_pos]
    rw [foldVD_append, CallGraph.addNodesForBlocks, addNodesForBlocksAux_eq]
    rfl
  | false => rfl

mutual

theorem TraverseDecl_eq : ∀ (cg : CallGraph) (D : Decl),
    cg.TraverseDecl D = foldVD cg (visitedDecls D)
  | cg, .mk i DeclKind.subprogram e g blks subs body => by
    simp only [CallGraph.TraverseDecl, visitedDecls, foldVD_append,
      TraverseDeclList_eq _ subs, foldl_TraverseStmt]
    rw [VisitSubprogramDecl_eq, visitPairs]
    rfl
  | cg, .mk i DeclKind.objcMethod e g blks subs body => by
    simp only [CallGraph.TraverseDecl, visitedDecls, foldVD_append,
      TraverseDeclList_eq _ subs, foldl_TraverseStmt]
    rw [VisitObjCMethodDecl_eq, visitPairs]
    rfl
  | cg, .mk i DeclKind.block e g blks subs body => by
    simp only [CallGraph.TraverseDecl, visitedDecls, foldVD_append,
      TraverseDeclList_eq _ subs, foldl_TraverseStmt]
    rfl
  | cg, .mk i DeclKind.other e g blks subs body => by
    simp only [CallGraph.TraverseDecl, visitedDecls, foldVD_append,
      TraverseDeclList_eq _ subs, foldl_TraverseStmt]
    rfl

theorem TraverseDeclList_eq : ∀ (cg : CallGraph) (Ds : List Decl),
    CallGraph.TraverseDeclList cg Ds = foldVD cg (visitedDeclsList Ds)
  | cg, [] => by simp [CallGraph.TraverseDeclList, visitedDeclsList, foldVD]
  | cg, D :: Ds => by
    rw [CallGraph.TraverseDeclList, visitedDeclsList, foldVD_append,
      TraverseDecl_eq cg D, TraverseDeclList_eq _ Ds]

end

/-! ### Basic lemmas about the graph operations -/


theorem getNode_none_iff (cg : CallGraph) (d : Nat) :
    cg.getNode d = none ↔ cg.SubprogramMap.find? (fun p => p.1 == d) = none := by
  rw [CallGraph.getNode]
  cases cg.SubprogramMap.find? (fun p => p.1 == d) <;> simp

theorem getNode_mem (cg : CallGraph) (d n : Nat) (h : cg.getNode d = some n) :
    (d, n) ∈ cg.SubprogramMap := by
  rw [CallGraph.getNode] at h
  cases hf : cg.SubprogramMap.find? (fun p => p.1 == d) with
  | none => rw [hf] at h; simp at h
  | some p =>
    rw [hf] at h
    have hm := List.mem_of_find?_eq_some hf
    have hp := List.find?_some hf
    simp only [beq_iff_eq] at hp
    simp only [Option.map_some'] at h
    have : p = (d, n) := by
      cases p with
      | mk a b => simp at hp h; rw [hp, h]
    rw [this] at hm
    exact hm

theorem getOrInsertNode_found (cg : CallGraph) (d n : Nat)
    (h : cg.getNode d = some n) : cg.getOrInsertNode d = (cg, n) := by
  rw [CallGraph.getOrInsertNode, h]

theorem getOrInsertNode_new (cg : CallGraph) (d : Nat)
    (h : cg.getNode d = none) :
    cg.getOrInsertNode d = (insertFresh cg d, cg.nodes.length) := by
  rw [CallGraph.getOrInsertNode, h]
  rfl

theorem insertFresh_getNode_self (cg : CallGraph) (d : Nat)
    (h : cg.getNode d = none) :
    (insertFresh cg d).getNode d = some cg.nodes.length := by
  have hf := (getNode_none_iff cg d).mp h
  rw [CallGraph.getNode, insertFresh, List.find?_append, hf]
  simp [List.find?]

theorem insertFresh_getNode_ne (cg : CallGraph) (d j : Nat) (h : j ≠ d) :
    (insertFresh cg d).getNode j = cg.getNode j := by
  rw [CallGraph.getNode, CallGraph.getNode, insertFresh, List.find?_append]
  cases hf : cg.SubprogramMap.find? (fun p => p.1 == j) with
  | none =>
    have hd : (d == j) = false := beq_eq_false_iff_ne.mpr (Ne.symm h)
    simp [List.find?, hd]
  | some p => simp

theorem addCalleeAt_SubprogramMap (cg : CallGraph) (c : Nat) (N : CallRecord)
    (a : CallGraph) : (cg.addCalleeAt c N a).SubprogramMap = cg.SubprogramMap :=
  rfl

theorem addCalleeAt_Root (cg : CallGraph) (c : Nat) (N : CallRecord)
    (a : CallGraph) : (cg.addCalleeAt c N a).Root = cg.Root :=
  rfl

theorem addCalleeAt_getNode (cg : CallGraph) (c : Nat) (N : CallRecord)
    (a : CallGraph) (j : Nat) : (cg.addCalleeAt c N a).getNode j = cg.getNode j :=
  rfl

theorem addCalleeAt_nodes_length (cg : CallGraph) (c : Nat) (N : CallRecord)
    (a : CallGraph) : (cg.addCalleeAt c N a).nodes.length = cg.nodes.length := by
  simp [CallGraph.addCalleeAt]

theorem nodeAt_addCalleeAt_self (cg : CallGraph) (c : Nat) (N : CallRecord)
    (a : CallGraph) (h : c < cg.nodes.length) :
    (cg.addCalleeAt c N a).nodeAt c = (cg.nodeAt c).addCallee N a := by
  simp [CallGraph.addCalleeAt, CallGraph.nodeAt, List.getElem?_set_self h]

theorem nodeAt_addCalleeAt_ne (cg : CallGraph) (c : Nat) (N : CallRecord)
    (a : CallGraph) (j : Nat) (h : c ≠ j) :
    (cg.addCalleeAt c N a).nodeAt j = cg.nodeAt j := by
  simp [CallGraph.addCalleeAt, CallGraph.nodeAt, List.getElem?_set_ne h]

theorem nodeAt_insertFresh (cg : CallGraph) (d j : Nat) (h : j < cg.nodes.length) :
    (insertFresh cg d).nodeAt j = cg.nodeAt j := by
  simp [insertFresh, CallGraph.nodeAt, List.getElem?_append_left h]

theorem rootCallees_addCalleeAt_root (cg : CallGraph) (N : CallRecord)
    (a : CallGraph) (h : cg.Root < cg.nodes.length) :
    (cg.addCalleeAt cg.Root N a).rootCallees = cg.rootCallees ++ [N] := by
  rw [CallGraph.rootCallees, CallGraph.rootCallees, addCalleeAt_Root,
    nodeAt_addCalleeAt_self cg _ N a h]
  rfl

theorem rootCallees_insertFresh (cg : CallGraph) (d : Nat)
    (h : cg.Root < cg.nodes.length) :
    (insertFresh cg d).rootCallees = cg.rootCallees := by
  rw [CallGraph.rootCallees, CallGraph.rootCallees]
  have : (insertFresh cg d).Root = cg.Root := rfl
  rw [this, nodeAt_insertFresh cg d cg.Root h]

/-! ### The discovery invariant -/


theorem Inv.root_lt {cg : CallGraph} (h : Inv cg) : cg.Root < cg.nodes.length := by
  rw [h.root_eq, h.nodes_len]
  exact Nat.succ_pos _

theorem Inv_empty : Inv CallGraph.empty := by
  constructor <;> simp [CallGraph.empty, CallGraph.rootCallees, CallGraph.nodeAt]

/-- Case analysis of a single `addNodeForDecl` call on a well-formed graph:
either the declaration was already bound (and a root edge to its node is
added exactly when the flag is set and the edge is not yet present), or a
fresh node is allocated (with a root edge exactly when the flag is set). -/
theorem addNodeForDecl_char (cg : CallGraph) (d : Nat) (f : Bool)
    (hInv : Inv cg) :
    (∃ n, cg.getNode d = some n ∧
      ((cg.addNodeForDecl d f = cg ∧ (f = true → n ∈ cg.rootCallees)) ∨
       (f = true ∧ cg.addNodeForDecl d f = cg.addCalleeAt cg.Root n cg ∧
         n ∉ cg.rootCallees)))
    ∨ (cg.getNode d = none ∧
      ((f = false ∧ cg.addNodeForDecl d f = insertFresh cg d) ∨
       (f = true ∧ cg.addNodeForDecl d f =
         (insertFresh cg d).addCalleeAt cg.Root cg.nodes.length
           (insertFresh cg d)))) := by
  cases hd : cg.getNode d with
  | some n =>
    left
    refine ⟨n, rfl, ?_⟩
    rw [CallGraph.addNodeForDecl, getOrInsertNode_found cg d n hd]
    cases f with
    | false => exact Or.inl ⟨rfl, by simp⟩
    | true =>
      cases hc : cg.rootCallees.contains n with
      | true =>
        refine Or.inl ⟨by simp [hc], fun _ => ?_⟩
        simpa using hc
      | false =>
        refine Or.inr ⟨rfl, by simp [hc], ?_⟩
        simpa using hc
  | none =>
    right
    refine ⟨rfl, ?_⟩
    rw [CallGraph.addNodeForDecl, getOrInsertNode_new cg d hd]
    have hroots : (insertFresh cg d).rootCallees = cg.rootCallees :=
      rootCallees_insertFresh cg d hInv.root_lt
    have hc : (insertFresh cg d).rootCallees.contains cg.nodes.length = false := by
      rw [hroots]
      have : cg.nodes.length ∉ cg.rootCallees := fun hm =>
        Nat.lt_irrefl _ (hInv.root_edges_range _ hm)
      simpa using this
    cases f with
    | false => exact Or.inl ⟨rfl, by simp⟩
    | true =>
      refine Or.inr ⟨rfl, ?_⟩
      rw [hc]
      rfl

theorem Inv_addCalleeAt_root (cg : CallGraph) (N : CallRecord) (a : CallGraph)
    (hInv : Inv cg) (hN : N < cg.nodes.length) :
    Inv (cg.addCalleeAt cg.Root N a) := by
  have hlen := addCalleeAt_nodes_length cg cg.Root N a
  have hroots := rootCallees_addCalleeAt_root cg N a hInv.root_lt
  refine ⟨hInv.root_eq ▸ addCalleeAt_Root cg cg.Root N a, ?_, ?_, ?_, ?_⟩
  · rw [hlen, addCalleeAt_SubprogramMap]
    exact hInv.nodes_len
  · rw [hlen, addCalleeAt_SubprogramMap]
    exact hInv.vals_range
  · rw [addCalleeAt_SubprogramMap]
    exact hInv.snd_inj
  · rw [hlen, hroots]
    intro n hn
    rcases List.mem_append.mp hn with h | h
    · exact hInv.root_edges_range n h
    · rw [List.mem_singleton.mp h]
      exact hN

theorem Inv_insertFresh (cg : CallGraph) (d : Nat) (hInv : Inv cg) :
    Inv (insertFresh cg d) := by
  have hlen : (insertFresh cg d).nodes.length = cg.nodes.length + 1 := by
    simp [insertFresh]
  have hroots := rootCallees_insertFresh cg d hInv.root_lt
  refine ⟨hInv.root_eq, ?_, ?_, ?_, ?_⟩
  · rw [hlen]
    simp [insertFresh, hInv.nodes_len]
  · intro p hp
    rw [hlen]
    rcases List.mem_append.mp hp with h | h
    · exact Nat.lt_succ_of_lt (hInv.vals_range p h)
    · rw [List.mem_singleton.mp h]
      exact Nat.lt_succ_self _
  · intro p hp q hq hpq
    rcases List.mem_append.mp hp with h1 | h1 <;>
      rcases List.mem_append.mp hq with h2 | h2
    · exact hInv.snd_inj p h1 q h2 hpq
    · rw [List.mem_singleton.mp h2] at hpq
      exact absurd hpq (Nat.ne_of_lt (hInv.vals_range p h1))
    · rw [List.mem_singleton.mp h1] at hpq
      exact absurd hpq.symm (Nat.ne_of_lt (hInv.vals_range q h2))
    · rw [List.mem_singleton.mp h1, List.mem_singleton.mp h2]
  · intro n hn
    rw [hroots] at hn
    rw [hlen]
    exact Nat.lt_succ_of_lt (hInv.root_edges_range n hn)

theorem step_Inv (cg : CallGraph) (d : Nat) (f : Bool) (hInv : Inv cg) :
    Inv (cg.addNodeForDecl d f) := by
  rcases addNodeForDecl_char cg d f hInv with
    ⟨n, hn, ⟨heq, _⟩ | ⟨_, heq, _⟩⟩ | ⟨hd, ⟨_, heq⟩ | ⟨_, heq⟩⟩
  · rw [heq]; exact hInv
  · rw [heq]
    have := getNode_mem cg d n hn
    exact Inv_addCalleeAt_root cg n cg hInv (hInv.vals_range _ this)
  · rw [heq]; exact Inv_insertFresh cg d hInv
  · rw [heq]
    have hIF := Inv_insertFresh cg d hInv
    have hr : (insertFresh cg d).Root = cg.Root := rfl
    rw [← hr]
    refine Inv_addCalleeAt_root (insertFresh cg d) cg.nodes.length
      (insertFresh cg d) hIF ?_
    simp [insertFresh]

theorem step_getNode_ne (cg : CallGraph) (d : Nat) (f : Bool) (j : Nat)
    (hInv : Inv cg) (hj : j ≠ d) :
    (cg.addNodeForDecl d f).getNode j = cg.getNode j := by
  rcases addNodeForDecl_char cg d f hInv with
    ⟨n, hn, ⟨heq, _⟩ | ⟨_, heq, _⟩⟩ | ⟨hd, ⟨_, heq⟩ | ⟨_, heq⟩⟩
  · rw [heq]
  · rw [heq, addCalleeAt_getNode]
  · rw [heq]; exact insertFresh_getNode_ne cg d j hj
  · rw [heq, addCalleeAt_getNode]; exact insertFresh_getNode_ne cg d j hj

theorem step_getNode_mono (cg : CallGraph) (d : Nat) (f : Bool) (j n : Nat)
    (hInv : Inv cg) (h : cg.getNode j = some n) :
    (cg.addNodeForDecl d f).getNode j = some n := by
  by_cases hj : j = d
  · subst hj
    rcases addNodeForDecl_char cg j f hInv with
      ⟨m, hm, ⟨heq, _⟩ | ⟨_, heq, _⟩⟩ | ⟨hd, _⟩
    · rw [heq]; exact h
    · rw [heq, addCalleeAt_getNode]; exact h
    · rw [h] at hd; exact absurd hd (Option.some_ne_none n)
  · rw [step_getNode_ne cg d f j hInv hj]; exact h

theorem step_root_mono (cg : CallGraph) (d : Nat) (f : Bool) (m : Nat)
    (hInv : Inv cg) (h : m ∈ cg.rootCallees) :
    m ∈ (cg.addNodeForDecl d f).rootCallees := by
  rcases addNodeForDecl_char cg d f hInv with
    ⟨n, hn, ⟨heq, _⟩ | ⟨_, heq, _⟩⟩ | ⟨hd, ⟨_, heq⟩ | ⟨_, heq⟩⟩
  · rw [heq]; exact h
  · rw [heq, rootCallees_addCalleeAt_root cg n cg hInv.root_lt]
    exact List.mem_append_left _ h
  · rw [heq, rootCallees_insertFresh cg d hInv.root_lt]; exact h
  · rw [heq]
    have hr : (insertFresh cg d).Root = cg.Root := rfl
    rw [← hr, rootCallees_addCalleeAt_root (insertFresh cg d) _ _
      (Inv_insertFresh cg d hInv).root_lt,
      rootCallees_insertFresh cg d hInv.root_lt]
    exact List.mem_append_left _ h

theorem step_true (cg : CallGraph) (d : Nat) (hInv : Inv cg) :
    ∃ n, (cg.addNodeForDecl d true).getNode d = some n ∧
      n ∈ (cg.addNodeForDecl d true).rootCallees := by
  rcases addNodeForDecl_char cg d true hInv with
    ⟨n, hn, ⟨heq, himp⟩ | ⟨_, heq, _⟩⟩ | ⟨hd, ⟨hf, _⟩ | ⟨_, heq⟩⟩
  · exact ⟨n, by rw [heq]; exact hn, by rw [heq]; exact himp rfl⟩
  · refine ⟨n, ?_, ?_⟩
    · rw [heq, addCalleeAt_getNode]; exact hn
    · rw [heq, rootCallees_addCalleeAt_root cg n cg hInv.root_lt]
      exact List.mem_append_right _ (List.mem_singleton_self n)
  · exact absurd hf (by simp)
  · refine ⟨cg.nodes.length, ?_, ?_⟩
    · rw [heq, addCalleeAt_getNode]; exact insertFresh_getNode_self cg d hd
    · rw [heq]
      have hr : (insertFresh cg d).Root = cg.Root := rfl
      rw [← hr, rootCallees_addCalleeAt_root (insertFresh cg d) _ _
        (Inv_insertFresh cg d hInv).root_lt]
      exact List.mem_append_right _ (List.mem_singleton_self _)

theorem step_keep_noedge (cg : CallGraph) (d : Nat) (f : Bool) (j m : Nat)
    (hInv : Inv cg) (h1 : cg.getNode j = some m) (h2 : m ∉ cg.rootCallees)
    (h3 : j ≠ d ∨ f = false) :
    (cg.addNodeForDecl d f).getNode j = some m ∧
      m ∉ (cg.addNodeForDecl d f).rootCallees := by
  refine ⟨step_getNode_mono cg d f j m hInv h1, ?_⟩
  rcases addNodeForDecl_char cg d f hInv with
    ⟨n, hn, ⟨heq, _⟩ | ⟨hf, heq, _⟩⟩ | ⟨hd, ⟨_, heq⟩ | ⟨hf, heq⟩⟩
  · rw [heq]; exact h2
  · rw [heq, rootCallees_addCalleeAt_root cg n cg hInv.root_lt]
    intro hmem
    rcases List.mem_append.mp hmem with h | h
    · exact h2 h
    · have hmn : m = n := List.mem_singleton.mp h
      have hj : j = d := by
        have hmem1 := getNode_mem cg j m h1
        have hmem2 := getNode_mem cg d n hn
        exact hInv.snd_inj (j, m) hmem1 (d, n) hmem2 (by rw [hmn])
      rcases h3 with h3 | h3
      · exact h3 hj
      · rw [h3] at hf; exact Bool.false_ne_true hf
  · rw [heq, rootCallees_insertFresh cg d hInv.root_lt]; exact h2
  · rw [heq]
    have hr : (insertFresh cg d).Root = cg.Root := rfl
    rw [← hr, rootCallees_addCalleeAt_root (insertFresh cg d) _ _
      (Inv_insertFresh cg d hInv).root_lt,
      rootCallees_insertFresh cg d hInv.root_lt]
    intro hmem
    rcases List.mem_append.mp hmem with h | h
    · exact h2 h
    · have hm : m = cg.nodes.length := List.mem_singleton.mp h
      have := hInv.vals_range (j, m) (getNode_mem cg j m h1)
      rw [hm] at this
      exact Nat.lt_irrefl _ this

theorem step_new_false (cg : CallGraph) (d : Nat) (hInv : Inv cg)
    (hd : cg.getNode d = none) :
    (cg.addNodeForDecl d false).getNode d = some cg.nodes.length ∧
      cg.nodes.length ∉ (cg.addNodeForDecl d false).rootCallees := by
  rcases addNodeForDecl_char cg d false hInv with
    ⟨n, hn, _⟩ | ⟨_, ⟨_, heq⟩ | ⟨hf, _⟩⟩
  · rw [hd] at hn; exact absurd hn.symm (Option.some_ne_none n)
  · refine ⟨by rw [heq]; exact insertFresh_getNode_self cg d hd, ?_⟩
    rw [heq, rootCallees_insertFresh cg d hInv.root_lt]
    intro hmem
    exact Nat.lt_irrefl _ (hInv.root_edges_range _ hmem)
  · exact absurd hf (by simp)

/-! ### Fold-level lemmas over the visited pairs -/

theorem foldID_cons (cg : CallGraph) (p : Nat × Bool) (L : List (Nat × Bool)) :
    foldID cg (p :: L) = foldID (cg.addNodeForDecl p.1 p.2) L :=
  rfl

theorem foldID_Inv : ∀ (L : List (Nat × Bool)) (cg : CallGraph),
    Inv cg → Inv (foldID cg L)
  | [], _, hInv => hInv
  | p :: L, cg, hInv =>
    foldID_Inv L _ (step_Inv cg p.1 p.2 hInv)

theorem foldID_getNode_mono :
    ∀ (L : List (Nat × Bool)) (cg : CallGraph) (j n : Nat),
      Inv cg → cg.getNode j = some n → (foldID cg L).getNode j = some n
  | [], _, _, _, _, h => h
  | p :: L, cg, j, n, hInv, h =>
    foldID_getNode_mono L _ j n (step_Inv cg p.1 p.2 hInv)
      (step_getNode_mono cg p.1 p.2 j n hInv h)

theorem foldID_root_mono :
    ∀ (L : List (Nat × Bool)) (cg : CallGraph) (m : Nat),
      Inv cg → m ∈ cg.rootCallees → m ∈ (foldID cg L).rootCallees
  | [], _, _, _, h => h
  | p :: L, cg, m, hInv, h =>
    foldID_root_mono L _ m (step_Inv cg p.1 p.2 hInv)
      (step_root_mono cg p.1 p.2 m hInv h)

theorem foldID_getNode_none :
    ∀ (L : List (Nat × Bool)) (cg : CallGraph) (j : Nat),
      Inv cg → cg.getNode j = none → (∀ f, (j, f) ∉ L) →
      (foldID cg L).getNode j = none
  | [], _, _, _, h, _ => h
  | (d, f) :: L, cg, j, hInv, h, hnot => by
    have hj : j ≠ d := by
      intro hjd
      exact hnot f (by rw [hjd]; exact List.mem_cons_self _ _)
    rw [foldID_cons]
    exact foldID_getNode_none L _ j (step_Inv cg d f hInv)
      (by rw [step_getNode_ne cg d f j hInv hj]; exact h)
      (fun f2 hf2 => hnot f2 (List.mem_cons_of_mem _ hf2))

theorem foldID_true :
    ∀ (L : List (Nat × Bool)) (cg : CallGraph) (d : Nat),
      Inv cg → (d, true) ∈ L →
      ∃ n, (foldID cg L).getNode d = some n ∧ n ∈ (foldID cg L).rootCallees
  | [], _, _, _, hmem => absurd hmem (List.not_mem_nil _)
  | (d2, f2) :: L, cg, d, hInv, hmem => by
    rcases List.mem_cons.mp hmem with heq | hmem2
    · have hd : d2 = d := congrArg Prod.fst heq.symm
      have hf : f2 = true := congrArg Prod.snd heq.symm
      subst hd
      subst hf
      obtain ⟨n, hn1, hn2⟩ := step_true cg d2 hInv
      have hInv2 := step_Inv cg d2 true hInv
      refine ⟨n, ?_, ?_⟩
      · rw [foldID_cons]
        exact foldID_getNode_mono L _ d2 n hInv2 hn1
      · rw [foldID_cons]
        exact foldID_root_mono L _ n hInv2 hn2
    · rw [foldID_cons]
      exact foldID_true L _ d (step_Inv cg d2 f2 hInv) hmem2

theorem foldID_keep_noedge :
    ∀ (L : List (Nat × Bool)) (cg : CallGraph) (j m : Nat),
      Inv cg → cg.getNode j = some m → m ∉ cg.rootCallees →
      (∀ f, (j, f) ∈ L → f = false) →
      (foldID cg L).getNode j = some m ∧ m ∉ (foldID cg L).rootCallees
  | [], _, _, _, _, h1, h2, _ => ⟨h1, h2⟩
  | (d, f) :: L, cg, j, m, hInv, h1, h2, hflags => by
    have h3 : j ≠ d ∨ f = false := by
      by_cases hjd : j = d
      · exact Or.inr (hflags f (by rw [hjd]; exact List.mem_cons_self _ _))
      · exact Or.inl hjd
    obtain ⟨h1s, h2s⟩ := step_keep_noedge cg d f j m hInv h1 h2 h3
    rw [foldID_cons]
    exact foldID_keep_noedge L _ j m (step_Inv cg d f hInv) h1s h2s
      (fun f2 hf2 => hflags f2 (List.mem_cons_of_mem _ hf2))

theorem foldID_false_unique :
    ∀ (L : List (Nat × Bool)) (cg : CallGraph) (d : Nat),
      Inv cg → cg.getNode d = none → (d, false) ∈ L →
      (L.map Prod.fst).Nodup →
      ∃ n, (foldID cg L).getNode d = some n ∧ n ∉ (foldID cg L).rootCallees
  | [], _, _, _, _, hmem, _ => absurd hmem (List.not_mem_nil _)
  | (d2, f2) :: L, cg, d, hInv, hd, hmem, hnodup => by
    have hnodup2 : (L.map Prod.fst).Nodup := (List.nodup_cons.mp hnodup).2
    have hhead : d2 ∉ L.map Prod.fst := (List.nodup_cons.mp hnodup).1
    rcases List.mem_cons.mp hmem with heq | hmem2
    · have hd2 : d2 = d := congrArg Prod.fst heq.symm
      have hf2 : f2 = false := congrArg Prod.snd heq.symm
      subst hd2
      subst hf2
      obtain ⟨h1s, h2s⟩ := step_new_false cg d2 hInv hd
      rw [foldID_cons]
      refine ⟨cg.nodes.length, ?_, ?_⟩ <;>
        [skip;
         exact (foldID_keep_noedge L _ d2 cg.nodes.length
           (step_Inv cg d2 false hInv) h1s h2s
           (fun f hf => absurd (List.mem_map_of_mem Prod.fst hf) hhead)).2]
      exact (foldID_keep_noedge L _ d2 cg.nodes.length
        (step_Inv cg d2 false hInv) h1s h2s
        (fun f hf => absurd (List.mem_map_of_mem Prod.fst hf) hhead)).1
    · have hne : d ≠ d2 := by
        intro hdd
        exact hhead (hdd ▸ List.mem_map_of_mem Prod.fst hmem2)
      rw [foldID_cons]
      exact foldID_false_unique L _ d (step_Inv cg d2 f2 hInv)
        (by rw [step_getNode_ne cg d2 f2 d hInv hne]; exact hd)
        hmem2 hnodup2

/-! ### Where the visited pairs come from -/

theorem addToCallGraph_eq (cg : CallGraph) (tu : Decl) :
    cg.addToCallGraph tu = foldID cg (idPairs (visitedDecls tu)) := by
  rw [CallGraph.addToCallGraph, TraverseDecl_eq, foldVD_eq_foldID]

theorem idPairs_append (L1 L2 : List (Decl × Bool)) :
    idPairs (L1 ++ L2) = idPairs L1 ++ idPairs L2 :=
  List.map_append _ L1 L2

theorem idPairs_fst (L : List (Decl × Bool)) :
    (idPairs L).map Prod.fst = L.map (fun p => p.1.declId) := by
  rw [idPairs, List.map_map]
  rfl

/-- Every pair recorded by `blocksPairs` is a block declaration carrying
the enclosing declaration's reachability flag. -/
theorem blocksPairs_kind (flag : Bool) :
    ∀ (Bs : List Decl) (D : Decl) (f : Bool),
      (D, f) ∈ blocksPairs flag Bs → D.kind = DeclKind.block ∧ f = flag
  | [], D, f, h => by rw [blocksPairs] at h; exact absurd h (List.not_mem_nil _)
  | .mk i k e g blks subs body :: Bs, D, f, h => by
    rw [blocksPairs] at h
    rcases List.mem_append.mp h with h1 | h2
    · rcases List.mem_append.mp h1 with h0 | hb
      · cases hk : (k == DeclKind.block) with
        | true =>
          rw [hk] at h0
          simp only [if_true] at h0
          have he := List.mem_singleton.mp h0
          have hD : D = Decl.mk i k e g blks subs body := congrArg Prod.fst he
          have hf : f = flag := congrArg Prod.snd he
          refine ⟨?_, hf⟩
          rw [hD, Decl.kind]
          exact beq_iff_eq.mp hk
        | false =>
          rw [hk] at h0
          simp at h0
      · exact blocksPairs_kind flag blks D f hb
    · exact blocksPairs_kind flag Bs D f h2

/-- Every pair recorded by `visitPairs` for a subprogram declaration
carries exactly that declaration's linkage flag (`FD->isGlobal()`). -/
theorem visitPairs_kind (D0 D : Decl) (f : Bool)
    (h : (D, f) ∈ visitPairs D0) :
    D.kind = DeclKind.subprogram → f = D.isGlobal := by
  intro hk
  cases D0 with
  | mk i k e g blks subs body =>
    cases k with
    | subprogram =>
      simp only [visitPairs, Decl.kind, Decl.blocks, Decl.isGlobal] at h
      by_cases he : includeInGraph (Decl.mk i DeclKind.subprogram e g blks subs body)
      · rw [if_pos he] at h
        rcases List.mem_append.mp h with hb | hs
        · have := (blocksPairs_kind g blks D f hb).1
          rw [hk] at this
          exact absurd this (by simp)
        · have he2 := List.mem_singleton.mp hs
          have hD : D = Decl.mk i DeclKind.subprogram e g blks subs body :=
            congrArg Prod.fst he2
          have hf : f = g := congrArg Prod.snd he2
          rw [hf, hD, Decl.isGlobal]
      · rw [if_neg he] at h
        exact absurd h (List.not_mem_nil _)
    | objcMethod =>
      simp only [visitPairs, Decl.kind, Decl.blocks, Decl.isGlobal] at h
      by_cases he : includeInGraph (Decl.mk i DeclKind.objcMethod e g blks subs body)
      · rw [if_pos he] at h
        rcases List.mem_append.mp h with hb | hs
        · have := (blocksPairs_kind g blks D f hb).1
          rw [hk] at this
          exact absurd this (by simp)
        · have he2 := List.mem_singleton.mp hs
          have hD : D = Decl.mk i DeclKind.objcMethod e g blks subs body :=
            congrArg Prod.fst he2
          rw [hD, Decl.kind] at hk
          exact absurd hk (by simp)
      · rw [if_neg he] at h
        exact absurd h (List.not_mem_nil _)
    | block =>
      simp only [visitPairs, Decl.kind] at h
      exact absurd h (List.not_mem_nil _)
    | other =>
      simp only [visitPairs, Decl.kind] at h
      exact absurd h (List.not_mem_nil _)

mutual

theorem visitedDecls_kind : ∀ (D0 D : Decl) (f : Bool),
    (D, f) ∈ visitedDecls D0 → D.kind = DeclKind.subprogram → f = D.isGlobal
  | .mk i k e g blks subs body, D, f, h, hk => by
    rw [visitedDecls] at h
    rcases List.mem_append.mp h with h1 | h2
    · exact visitPairs_kind _ D f h1 hk
    · exact visitedDeclsList_kind subs D f h2 hk

theorem visitedDeclsList_kind : ∀ (Ds : List Decl) (D : Decl) (f : Bool),
    (D, f) ∈ visitedDeclsList Ds → D.kind = DeclKind.subprogram → f = D.isGlobal
  | [], D, f, h, _ => absurd h (List.not_mem_nil _)
  | D0 :: Ds, D, f, h, hk => by
    rw [visitedDeclsList] at h
    rcases List.mem_append.mp h with h1 | h2
    · exact visitedDecls_kind D0 D f h1 hk
    · exact visitedDeclsList_kind Ds D f h2 hk

end

/-! ### Erasing statement bodies -/


theorem idPairs_blocksPairs_eraseBodies (flag : Bool) :
    ∀ Bs : List Decl,
      idPairs (blocksPairs flag (eraseBodiesList Bs))
        = idPairs (blocksPairs flag Bs)
  | [] => rfl
  | .mk i k e g blks subs body :: Bs => by
    rw [eraseBodiesList, eraseBodies, blocksPairs, blocksPairs,
      idPairs_append, idPairs_append, idPairs_append, idPairs_append,
      idPairs_blocksPairs_eraseBodies flag blks,
      idPairs_blocksPairs_eraseBodies flag Bs]
    cases hk : (k == DeclKind.block) with
    | true => rfl
    | false => rfl

theorem idPairs_visitPairs_eraseBodies (D : Decl) :
    idPairs (visitPairs (eraseBodies D)) = idPairs (visitPairs D) := by
  cases D with
  | mk i k e g blks subs body =>
    rw [eraseBodies, visitPairs, visitPairs]
    cases k with
    | subprogram =>
      simp only [Decl.kind, Decl.blocks, Decl.isGlobal, Decl.declId,
        includeInGraph, Decl.eligible]
      cases e with
      | true =>
        simp only [if_true]
        rw [idPairs_append, idPairs_append, idPairs_blocksPairs_eraseBodies]
        rfl
      | false => rfl
    | objcMethod =>
      simp only [Decl.kind, Decl.blocks, Decl.isGlobal, Decl.declId,
        includeInGraph, Decl.eligible]
      cases e with
      | true =>
        simp only [if_true]
        rw [idPairs_append, idPairs_append, idPairs_blocksPairs_eraseBodies]
        rfl
      | false => rfl
    | block => rfl
    | other => rfl

mutual

theorem idPairs_visitedDecls_eraseBodies : ∀ D : Decl,
    idPairs (visitedDecls (eraseBodies D)) = idPairs (visitedDecls D)
  | .mk i k e g blks subs body => by
    rw [visitedDecls, eraseBodies]
    have h1 := idPairs_visitPairs_eraseBodies (.mk i k e g blks subs body)
    rw [eraseBodies] at h1
    calc idPairs (visitPairs (.mk i k e g (eraseBodiesList blks)
            (eraseBodiesList subs) []) ++ visitedDeclsList (eraseBodiesList subs))
        = idPairs (visitPairs (.mk i k e g (eraseBodiesList blks)
            (eraseBodiesList subs) []))
          ++ idPairs (visitedDeclsList (eraseBodiesList subs)) := idPairs_append ..
      _ = idPairs (visitPairs (.mk i k e g blks subs body))
          ++ idPairs (visitedDeclsList subs) := by
            rw [h1, idPairs_visitedDeclsList_eraseBodies subs]
      _ = idPairs (visitedDecls (.mk i k e g blks subs body)) := by
            rw [visitedDecls, idPairs_append]

theorem idPairs_visitedDeclsList_eraseBodies : ∀ Ds : List Decl,
    idPairs (visitedDeclsList (eraseBodiesList Ds)) = idPairs (visitedDeclsList Ds)
  | [] => rfl
  | D :: Ds => by
    rw [eraseBodiesList, visitedDeclsList, visitedDeclsList,
      idPairs_append, idPairs_append,
      idPairs_visitedDecls_eraseBodies D,
      idPairs_visitedDeclsList_eraseBodies Ds]

end



theorem visitedDecls_exTU :
    visitedDecls exTU = [(exB, true), (exF, true), (exG, false)] := by
  simp [exTU, exF, exG, exB, visitedDecls, visitedDeclsList, visitPairs,
    blocksPairs, includeInGraph, Decl.kind, Decl.eligible, Decl.isGlobal,
    Decl.blocks]

/-! ### The claims -/

/-- **C1**  After discovery (`addToCallGraph` on the freshly built graph)
over a compilation unit whose declaration identities are pairwise distinct
(as distinct C++ `Decl` objects are): (i) every declaration visited with
reachability flag `true` — a global subprogram, an ObjC method, or a block
owned by an externally-reachable enclosing declaration — has a node that
the root's callee list contains an edge to; (ii) every eligible subprogram
declaration that is not global (not externally reachable and not a nested
block) has a node that the root's callee list contains no edge to. -/
theorem c1_root_edges_after_discovery (tu : Decl)
    (hids : ((visitedDecls tu).map (fun p => p.1.declId)).Nodup) :
    (∀ D f, (D, f) ∈ visitedDecls tu → f = true →
      ∃ n, (CallGraph.empty.addToCallGraph tu).getNode D.declId = some n ∧
        n ∈ (CallGraph.empty.addToCallGraph tu).rootCallees) ∧
    (∀ D f, (D, f) ∈ visitedDecls tu → D.kind = DeclKind.subprogram →
      D.isGlobal = false →
      ∃ n, (CallGraph.empty.addToCallGraph tu).getNode D.declId = some n ∧
        n ∉ (CallGraph.empty.addToCallGraph tu).rootCallees) := by
  constructor
  · intro D f hmem hf
    subst hf
    rw [addToCallGraph_eq]
    exact foldID_true _ _ _ Inv_empty
      (List.mem_map_of_mem (fun p => (p.1.declId, p.2)) hmem)
  · intro D f hmem hk hg
    have hf : f = D.isGlobal := visitedDecls_kind tu D f hmem hk
    rw [hg] at hf
    subst hf
    rw [addToCallGraph_eq]
    refine foldID_false_unique _ _ _ Inv_empty rfl
      (List.mem_map_of_mem (fun p => (p.1.declId, p.2)) hmem) ?_
    rw [idPairs_fst]
    exact hids

/-- Witness for C1: in the concrete unit `exTU`, the global function `exF`
and its block `exB` get root edges, the non-global `exG` gets none. -/
theorem c1_root_edges_after_discovery_witness :
    ((visitedDecls exTU).map (fun p => p.1.declId)).Nodup ∧
    (∃ n, (CallGraph.empty.addToCallGraph exTU).getNode exF.declId = some n ∧
      n ∈ (CallGraph.empty.addToCallGraph exTU).rootCallees) ∧
    (∃ n, (CallGraph.empty.addToCallGraph exTU).getNode exG.declId = some n ∧
      n ∉ (CallGraph.empty.addToCallGraph exTU).rootCallees) := by
  have hids : ((visitedDecls exTU).map (fun p => p.1.declId)).Nodup := by
    rw [visitedDecls_exTU]
    simp [exB, exF, exG, Decl.declId]
  refine ⟨hids, ?_, ?_⟩
  · exact (c1_root_edges_after_discovery exTU hids).1 exF true
      (by rw [visitedDecls_exTU]; simp) rfl
  · exact (c1_root_edges_after_discovery exTU hids).2 exG false
      (by rw [visitedDecls_exTU]; simp) rfl rfl

/-- **C2**  `getOrInsertNode` is idempotent per declaration: calling it a
second time with the same declaration returns the very same node handle
and the very same graph (nothing is allocated; the graph holds at most one
node per declaration). -/
theorem c2_getOrInsertNode_idempotent (cg : CallGraph) (d : Nat) :
    (cg.getOrInsertNode d).1.getOrInsertNode d = cg.getOrInsertNode d := by
  cases hd : cg.getNode d with
  | some n =>
    rw [getOrInsertNode_found cg d n hd, getOrInsertNode_found cg d n hd]
  | none =>
    rw [getOrInsertNode_new cg d hd,
      getOrInsertNode_found _ d _ (insertFresh_getNode_self cg d hd)]

/-- **C3**  After discovery, `size()` (the size of the declaration map)
equals the number of nodes in the graph excluding the synthetic root:
the arena holds exactly `size() + 1` nodes. -/
theorem c3_size_excludes_root (tu : Decl) :
    (CallGraph.empty.addToCallGraph tu).nodes.length
      = (CallGraph.empty.addToCallGraph tu).size + 1 := by
  rw [addToCallGraph_eq]
  exact (foldID_Inv _ _ Inv_empty).nodes_len

/-- Folding `addCallee` appends the targets in call order. -/
theorem foldl_addCallee (CG : CallGraph) :
    ∀ (ts : List CallRecord) (N : CallGraphNode),
      (ts.foldl (fun M T => M.addCallee T CG) N).CalledSubprograms
        = N.CalledSubprograms ++ ts
  | [], N => by simp
  | t :: ts, N => by
    rw [List.foldl_cons, foldl_addCallee CG ts]
    simp [CallGraphNode.addCallee]

/-- **C4**  Iterating a node's callee list yields the targets in exactly
the order the `addCallee` calls were made, and two `addCallee` calls with
the same target yield two entries, not one (no deduplication). -/
theorem c4_addCallee_order_multiplicity (N : CallGraphNode)
    (ts : List CallRecord) (CG : CallGraph) :
    (ts.foldl (fun M T => M.addCallee T CG) N).CalledSubprograms
        = N.CalledSubprograms ++ ts ∧
    (∀ t : CallRecord,
      ((N.addCallee t CG).addCallee t CG).CalledSubprograms
          = N.CalledSubprograms ++ [t, t] ∧
      ((N.addCallee t CG).addCallee t CG).size = N.size + 2) := by
  refine ⟨foldl_addCallee CG ts N, fun t => ⟨?_, ?_⟩⟩
  · simp [CallGraphNode.addCallee]
  · simp [CallGraphNode.addCallee, CallGraphNode.size]

/-- **C5**  The generic traversal adapter: the entry node of a whole-graph
traversal is the graph's root (`getEntryNode` = `getRoot`), and the
children of any node are exactly the `CGNDeref`-dereferenced targets of
its callee edges, in the same order; in particular the root's children
are exactly the root's callee list. -/
theorem c5_graphTraits_adapter (cg : CallGraph) :
    GraphTraits.getEntryNode cg = cg.getRoot ∧
    (∀ N, GraphTraits.children cg N
        = (cg.nodeAt N).CalledSubprograms.map GraphTraits.CGNDeref ∧
      GraphTraits.children cg N = (cg.nodeAt N).CalledSubprograms) ∧
    GraphTraits.children cg (GraphTraits.getEntryNode cg) = cg.rootCallees := by
  have hid : GraphTraits.CGNDeref = id := rfl
  refine ⟨rfl, fun N => ⟨rfl, ?_⟩, ?_⟩
  · rw [GraphTraits.children, hid, List.map_id]
  · rw [GraphTraits.children, hid, List.map_id]
    rfl

/-- **C6**  Statement bodies are never traversed during discovery: the
overridden `TraverseStmt` leaves the graph untouched, and the discovery
result is unchanged when every statement body in the unit is erased — the
node set and root edges are independent of the statements inside any
function body, and no node or edge is created from a statement. -/
theorem c6_bodies_never_traversed (cg : CallGraph) (tu : Decl) :
    (∀ s, cg.TraverseStmt s = cg) ∧
    cg.addToCallGraph (eraseBodies tu) = cg.addToCallGraph tu := by
  refine ⟨fun s => rfl, ?_⟩
  rw [addToCallGraph_eq, addToCallGraph_eq, idPairs_visitedDecls_eraseBodies]

/-- **C7**  Discovery never fails: the walk is a total function; a
declaration for which `includeInGraph` is false is silently skipped — the
traversal equals the traversal of the remaining declarations alone — and
it contributes no node: an identity unbound before and not visited by the
rest of the walk is still unbound afterwards. -/
theorem c7_ineligible_skipped (cg : CallGraph) (i : Nat) (g : Bool)
    (blks subs : List Decl) (body : List Stmt) (j : Nat)
    (hInv : Inv cg) (hnone : cg.getNode j = none)
    (hnot : ∀ f, (j, f) ∉ idPairs (visitedDeclsList subs)) :
    cg.TraverseDecl (.mk i .subprogram false g blks subs body)
        = CallGraph.TraverseDeclList cg subs ∧
    (cg.TraverseDecl (.mk i .subprogram false g blks subs body)).getNode j
        = none := by
  have hvp : visitPairs (Decl.mk i .subprogram false g blks subs body) = [] := by
    simp [visitPairs, includeInGraph, Decl.eligible, Decl.kind]
  have h1 : cg.TraverseDecl (.mk i .subprogram false g blks subs body)
      = CallGraph.TraverseDeclList cg subs := by
    rw [TraverseDecl_eq, visitedDecls, hvp, List.nil_append, ← TraverseDeclList_eq]
  refine ⟨h1, ?_⟩
  rw [h1, TraverseDeclList_eq, foldVD_eq_foldID]
  exact foldID_getNode_none _ _ _ hInv hnone hnot

/-- Witness for C7: an ineligible subprogram (id 5) with a nested block is
skipped, the walk continues over `exG`, and id 5 stays unbound. -/
theorem c7_ineligible_skipped_witness :
    Inv CallGraph.empty ∧ CallGraph.empty.getNode 5 = none ∧
    (∀ f, (5, f) ∉ idPairs (visitedDeclsList [exG])) ∧
    (CallGraph.empty.TraverseDecl (.mk 5 .subprogram false true [exB] [exG] [])
        = CallGraph.TraverseDeclList CallGraph.empty [exG] ∧
     (CallGraph.empty.TraverseDecl
        (.mk 5 .subprogram false true [exB] [exG] [])).getNode 5 = none) := by
  have hnot : ∀ f, (5, f) ∉ idPairs (visitedDeclsList [exG]) := by
    have hv : visitedDeclsList [exG] = [(exG, false)] := by
      simp [visitedDeclsList, visitedDecls, visitPairs, blocksPairs, exG,
        includeInGraph, Decl.kind, Decl.eligible, Decl.isGlobal, Decl.blocks]
    rw [hv]
    intro f
    simp [idPairs, exG, Decl.declId]
  exact ⟨Inv_empty, rfl, hnot,
    c7_ineligible_skipped CallGraph.empty 5 true [exB] [exG] [] 5
      Inv_empty rfl hnot⟩

/-- **C8**  Calling `addCallee` with the node's own handle as target is
accepted and appends the node to its own callee list: the node becomes one
of its own children in the adapter — a single-node cycle. -/
theorem c8_self_loop (cg : CallGraph) (i : Nat) (a : CallGraph)
    (h : i < cg.nodes.length) :
    ((cg.addCalleeAt i i a).nodeAt i).CalledSubprograms
        = (cg.nodeAt i).CalledSubprograms ++ [i] ∧
    i ∈ GraphTraits.children (cg.addCalleeAt i i a) i := by
  have h1 := nodeAt_addCalleeAt_self cg i i a h
  have hid : GraphTraits.CGNDeref = id := rfl
  constructor
  · rw [h1]
    rfl
  · rw [GraphTraits.children, hid, List.map_id, h1]
    exact List.mem_append_right _ (List.mem_singleton_self i)

/-- Witness for C8: a self edge on the root node of the fresh graph. -/
theorem c8_self_loop_witness :
    0 < CallGraph.empty.nodes.length ∧
    (((CallGraph.empty.addCalleeAt 0 0 CallGraph.empty).nodeAt 0).CalledSubprograms
        = (CallGraph.empty.nodeAt 0).CalledSubprograms ++ [0] ∧
     0 ∈ GraphTraits.children (CallGraph.empty.addCalleeAt 0 0 CallGraph.empty) 0) :=
  ⟨by decide, c8_self_loop CallGraph.empty 0 CallGraph.empty (by decide)⟩

/-- **C9** counterexample: the claim "CallGraphNode handles cannot be
constructed outside the owning CallGraph" is false on this code — the
constructor `CallGraphNode(Decl *D)` is `public` (CallGraph.h lines
144-145), so a node for declaration 7 can be built with no graph involved:
it is not among the nodes the fresh graph owns, declaration 7 is not
registered in any map, and `addCallee` nevertheless accepts the handle. -/
theorem c9_counterexample :
    CallGraphNode.publicCtor (some 7) ∉ CallGraph.empty.nodes ∧
    CallGraph.empty.getNode 7 = none ∧
    ((CallGraphNode.publicCtor (some 7)).addCallee 0 CallGraph.empty).CalledSubprograms
        = [0] := by
  refine ⟨?_, rfl, rfl⟩
  decide

/-- **C9** amended: the `CallGraphNode` constructor taking a declaration
is public, so node handles can be constructed outside any `CallGraph`;
`addCallee` performs no validation and accepts any handle — the
same-graph requirement is a convention on callers, not an enforced
property. -/
theorem c9_node_ctor_public (D : Option Nat) (t : CallRecord) (CG : CallGraph) :
    (CallGraphNode.publicCtor D).getDecl = D ∧
    ((CallGraphNode.publicCtor D).addCallee t CG).CalledSubprograms = [t] :=
  ⟨rfl, rfl⟩

/-- **C10**  `addCallee(N, CG)` modifies only the calling node's callee
list: the result is identical whichever `CallGraph` is passed, the
declaration map and root handle are unchanged, the calling node's
declaration is unchanged, every other node is untouched, and the caller's
callee list gains exactly the one appended target. -/
theorem c10_addCallee_frame (cg : CallGraph) (caller t : Nat)
    (CG1 CG2 : CallGraph) (h : caller < cg.nodes.length) :
    cg.addCalleeAt caller t CG1 = cg.addCalleeAt caller t CG2 ∧
    (cg.addCalleeAt caller t CG1).SubprogramMap = cg.SubprogramMap ∧
    (cg.addCalleeAt caller t CG1).Root = cg.Root ∧
    ((cg.addCalleeAt caller t CG1).nodeAt caller).getDecl
        = (cg.nodeAt caller).getDecl ∧
    ((cg.addCalleeAt caller t CG1).nodeAt caller).CalledSubprograms
        = (cg.nodeAt caller).CalledSubprograms ++ [t] ∧
    (∀ j, j ≠ caller → (cg.addCalleeAt caller t CG1).nodeAt j = cg.nodeAt j) := by
  refine ⟨rfl, rfl, rfl, ?_, ?_, ?_⟩
  · rw [nodeAt_addCalleeAt_self cg caller t CG1 h]
    rfl
  · rw [nodeAt_addCalleeAt_self cg caller t CG1 h]
    rfl
  · intro j hj
    exact nodeAt_addCalleeAt_ne cg caller t CG1 j (Ne.symm hj)

/-- Witness for C10: appending an edge to the root of the fresh graph,
with two different graphs passed as the unused argument. -/
theorem c10_addCallee_frame_witness :
    0 < CallGraph.empty.nodes.length ∧
    (CallGraph.empty.addCalleeAt 0 4 CallGraph.empty
        = CallGraph.empty.addCalleeAt 0 4 (insertFresh CallGraph.empty 9) ∧
     (CallGraph.empty.addCalleeAt 0 4 CallGraph.empty).SubprogramMap
        = CallGraph.empty.SubprogramMap ∧
     (CallGraph.empty.addCalleeAt 0 4 CallGraph.empty).Root = CallGraph.empty.Root ∧
     ((CallGraph.empty.addCalleeAt 0 4 CallGraph.empty).nodeAt 0).getDecl
        = (CallGraph.empty.nodeAt 0).getDecl ∧
     ((CallGraph.empty.addCalleeAt 0 4 CallGraph.empty).nodeAt 0).CalledSubprograms
        = (CallGraph.empty.nodeAt 0).CalledSubprograms ++ [4] ∧
     (∀ j, j ≠ 0 → (CallGraph.empty.addCalleeAt 0 4 CallGraph.empty).nodeAt j
        = CallGraph.empty.nodeAt j)) :=
  ⟨by decide,
   c10_addCallee_frame CallGraph.empty 0 4 CallGraph.empty
     (insertFresh CallGraph.empty 9) (by decide)⟩

end LFort
